import Mathlib

/-!
Verification of the chunked stack implementation in
`src/582Docs_Assignment3/stack.cc`.

The C code stores opaque `elem_size`-byte elements in a singly linked list of
chunks of `chunk_size` bytes each.  We embed the program shallowly:

* a chunk's data array is a `List Nat` of byte values;
* the `BLI_Stack` struct becomes a Lean structure with the same fields,
  where `chunks` is the linked list starting at `top_chunk` (head = newest);
* all `size_t` arithmetic is `Nat` arithmetic taken mod `2 ^ 64`
  (`wrapAdd` / `wrapSub`), so unsigned wrap-around is modelled faithfully;
* fallible steps return `Except Err _`: a failing `assert` is
  `Err.assertFail`, an access past a chunk's allocated bytes is `Err.oob`,
  and dereferencing a null `top_chunk` is `Err.nullPtr`.
-/

/-- Modulus of `size_t` arithmetic (64-bit platform). -/
def W : Nat := 2 ^ 64

/-- Addition of `size_t` values (wraps mod `2 ^ 64`). -/
def wrapAdd (a b : Nat) : Nat := (a + b) % W

/-- Subtraction of `size_t` values (wraps mod `2 ^ 64`). -/
def wrapSub (a b : Nat) : Nat := (a + (W - b % W)) % W

/-- Failure modes of the embedded operations. -/
inductive Err where
  | assertFail : Err
  | oob : Err
  | nullPtr : Err
deriving DecidableEq

/-- The `BLI_Stack` struct (stack.cc lines 13-19).  `chunks` is the list of
chunk data arrays hanging off `top_chunk`, newest chunk first. -/
structure BLI_Stack where
  elem_size : Nat
  chunk_size : Nat
  chunk_index : Nat
  element_count : Nat
  chunks : List (List Nat)
deriving DecidableEq

deriving instance DecidableEq for Except

/-- Read `len` bytes at byte offset `off` of a chunk's data array; reading
past the allocated bytes is an out-of-bounds access. -/
def readBytes (c : List Nat) (off len : Nat) : Except Err (List Nat) :=
  if off + len ≤ c.length then .ok ((c.drop off).take len) else .error .oob

/-- Overwrite the bytes at offsets `off, ..., off + v.length - 1` of a chunk's
data array with `v`; writing past the allocated bytes is out of bounds. -/
def writeBytes (c : List Nat) (off : Nat) (v : List Nat) : Except Err (List Nat) :=
  if off + v.length ≤ c.length then
    .ok (c.take off ++ v ++ c.drop (off + v.length))
  else .error .oob

/-- The `n` bytes `memcpy` reads from a source buffer `v`: exactly `n` bytes,
padded with unspecified bytes (modelled as 0) if the buffer is shorter. -/
def srcBytes (n : Nat) (v : List Nat) : List Nat :=
  v.take n ++ List.replicate (n - v.length) 0

/-- BLI_stack_new_ex (lines 22-32): `assert(elem_size > 0)`, then the chunk
size defaults to `1024 * elem_size` (computed in `size_t`) when 0 is passed. -/
def BLI_stack_new_ex (elem_size chunk_size : Nat) : Except Err BLI_Stack :=
  if elem_size = 0 then .error .assertFail
  else .ok
    { elem_size := elem_size
      chunk_size := if 0 < chunk_size then chunk_size else (1024 * elem_size) % W
      chunk_index := 0
      element_count := 0
      chunks := [] }

/-- BLI_stack_new (lines 35-38): default chunk size `1024 * elem_size`. -/
def BLI_stack_new (elem_size : Nat) : Except Err BLI_Stack :=
  BLI_stack_new_ex elem_size ((1024 * elem_size) % W)

/-- BLI_stack_push_r (lines 54-67): allocate a fresh chunk when there is no
chunk or the top chunk is full, then reserve `elem_size` bytes.  Returns the
new state together with the byte offset (within the head chunk) of the
returned pointer.  A fresh chunk's contents are unspecified (modelled as 0).
The function itself performs no data access, so it is total. -/
def BLI_stack_push_r (s : BLI_Stack) : BLI_Stack × Nat :=
  if s.chunks = [] ∨ s.chunk_index = s.chunk_size then
    ({ s with
        chunks := List.replicate s.chunk_size 0 :: s.chunks
        chunk_index := wrapAdd 0 s.elem_size
        element_count := wrapAdd s.element_count 1 }, 0)
  else
    ({ s with
        chunk_index := wrapAdd s.chunk_index s.elem_size
        element_count := wrapAdd s.element_count 1 }, s.chunk_index)

/-- BLI_stack_push (lines 70-75): `BLI_stack_push_r` followed by a `memcpy`
of `elem_size` bytes from `src` into the returned slot. -/
def BLI_stack_push (s : BLI_Stack) (src : List Nat) : Except Err BLI_Stack :=
  match BLI_stack_push_r s with
  | (s', off) =>
    match s'.chunks with
    | [] => .error .nullPtr
    | c :: rest =>
      match writeBytes c off (srcBytes s'.elem_size src) with
      | .ok c' => .ok { s' with chunks := c' :: rest }
      | .error e => .error e

/-- Final phase of BLI_stack_pop (lines 90-92): after the retraction, copy
`elem_size` bytes out of `top_chunk->data[chunk_index]` when `dst` is
non-null. -/
def popRead (s : BLI_Stack) (wantDst : Bool) :
    Except Err (Option (List Nat) × BLI_Stack) :=
  if wantDst then
    match s.chunks with
    | [] => .error .nullPtr
    | c :: _ =>
      match readBytes c s.chunk_index s.elem_size with
      | .ok v => .ok (some v, s)
      | .error e => .error e
  else .ok (none, s)

/-- BLI_stack_pop (lines 78-93): when `chunk_index == 0` the spent head chunk
is freed (`assert(old_chunk)` fails on a null head) and its successor is
promoted with `chunk_index = chunk_size`; then the offset and the element
count are retracted and, for a non-null `dst`, the bytes are copied out.
`wantDst = false` models passing a null `dst`. -/
def BLI_stack_pop (s : BLI_Stack) (wantDst : Bool) :
    Except Err (Option (List Nat) × BLI_Stack) :=
  if s.chunk_index = 0 then
    match s.chunks with
    | [] => .error .assertFail
    | _ :: rest =>
      popRead
        { s with
            chunks := rest
            chunk_index := wrapSub s.chunk_size s.elem_size
            element_count := wrapSub s.element_count 1 } wantDst
  else
    popRead
      { s with
          chunk_index := wrapSub s.chunk_index s.elem_size
          element_count := wrapSub s.element_count 1 } wantDst

/-- BLI_stack_peek (lines 96-101): `assert(stack && stack->top_chunk)`, then
return a pointer to `chunk_index - elem_size` (computed in `size_t`) in the
head chunk.  We model the `elem_size` bytes that pointer designates; an
out-of-range pointer is reported as `Err.oob`. -/
def BLI_stack_peek (s : BLI_Stack) : Except Err (List Nat) :=
  match s.chunks with
  | [] => .error .assertFail
  | c :: _ => readBytes c (wrapSub s.chunk_index s.elem_size) s.elem_size

/-- BLI_stack_discard (lines 104-116): same retraction logic as pop, written
out separately in the source, and never copies data out. -/
def BLI_stack_discard (s : BLI_Stack) : Except Err BLI_Stack :=
  if s.chunk_index = 0 then
    match s.chunks with
    | [] => .error .assertFail
    | _ :: rest =>
      .ok { s with
              chunks := rest
              chunk_index := wrapSub s.chunk_size s.elem_size
              element_count := wrapSub s.element_count 1 }
  else
    .ok { s with
            chunk_index := wrapSub s.chunk_index s.elem_size
            element_count := wrapSub s.element_count 1 }

/-- BLI_stack_clear (lines 119-129): free every chunk, reset offset and
count. -/
def BLI_stack_clear (s : BLI_Stack) : BLI_Stack :=
  { s with chunks := [], chunk_index := 0, element_count := 0 }

/-- BLI_stack_pop_n (lines 132-138): `n` pops, each with the non-null
destination `dst + i * elem_size`; slot `i` of the returned buffer holds the
`i`-th popped element (pop order). -/
def BLI_stack_pop_n : BLI_Stack → Nat → Except Err (List (List Nat) × BLI_Stack)
  | s, 0 => .ok ([], s)
  | s, n + 1 =>
    match BLI_stack_pop s true with
    | .ok (some v, s') =>
      match BLI_stack_pop_n s' n with
      | .ok (l, s'') => .ok (v :: l, s'')
      | .error e => .error e
    | .ok (none, _) => .error .nullPtr
    | .error e => .error e

/-- BLI_stack_pop_n_reverse (lines 141-147): the loop runs `i = n, ..., 1`
and the `i`-th iteration pops into slot `i - 1`, so the first popped element
lands in the last slot: the buffer is the reverse of the pop order. -/
def BLI_stack_pop_n_reverse :
    BLI_Stack → Nat → Except Err (List (List Nat) × BLI_Stack)
  | s, 0 => .ok ([], s)
  | s, n + 1 =>
    match BLI_stack_pop s true with
    | .ok (some v, s') =>
      match BLI_stack_pop_n_reverse s' n with
      | .ok (l, s'') => .ok (l ++ [v], s'')
      | .error e => .error e
    | .ok (none, _) => .error .nullPtr
    | .error e => .error e

/-- BLI_stack_count (lines 150-154). -/
def BLI_stack_count (s : BLI_Stack) : Nat := s.element_count

/-- BLI_stack_is_empty (lines 157-161). -/
def BLI_stack_is_empty (s : BLI_Stack) : Bool := s.element_count == 0

/-- One client-visible mutating operation of the API. -/
inductive StackOp where
  | push (v : List Nat) : StackOp
  | pushR : StackOp
  | pop (wantDst : Bool) : StackOp
  | discard : StackOp
  | popN (n : Nat) : StackOp
  | popNRev (n : Nat) : StackOp
  | clear : StackOp

/-- Apply one operation to a stack state. -/
def applyOp (s : BLI_Stack) : StackOp → Except Err BLI_Stack
  | .push v => BLI_stack_push s v
  | .pushR => .ok (BLI_stack_push_r s).1
  | .pop b =>
    match BLI_stack_pop s b with
    | .ok (_, s') => .ok s'
    | .error e => .error e
  | .discard => BLI_stack_discard s
  | .popN n =>
    match BLI_stack_pop_n s n with
    | .ok (_, s') => .ok s'
    | .error e => .error e
  | .popNRev n =>
    match BLI_stack_pop_n_reverse s n with
    | .ok (_, s') => .ok s'
    | .error e => .error e
  | .clear => .ok (BLI_stack_clear s)

/-- Run a sequence of operations, stopping at the first failure. -/
def runOps : BLI_Stack → List StackOp → Except Err BLI_Stack
  | s, [] => .ok s
  | s, op :: ops =>
    match applyOp s op with
    | .ok s' => runOps s' ops
    | .error e => .error e

/-! ### Arithmetic helper lemmas for `size_t` wrap-around -/

theorem W_pos : 0 < W := by decide

theorem one_lt_W : 1 < W := by decide

theorem wrapAdd_eq_add {a b : Nat} (h : a + b < W) : wrapAdd a b = a + b := by
  show (a + b) % W = a + b
  exact Nat.mod_eq_of_lt h

theorem wrapSub_eq_sub {a b : Nat} (hb : b ≤ a) (ha : a < W) : wrapSub a b = a - b := by
  have hbW : b < W := lt_of_le_of_lt hb ha
  show (a + (W - b % W)) % W = a - b
  rw [Nat.mod_eq_of_lt hbW]
  have h1 : a + (W - b) = (a - b) + W := by omega
  rw [h1, Nat.add_mod_right]
  exact Nat.mod_eq_of_lt (by omega)

theorem wrapAdd_mod_one (n : Nat) : wrapAdd (n % W) 1 = (n + 1) % W := by
  show (n % W + 1) % W = (n + 1) % W
  conv_rhs => rw [Nat.add_mod]
  rw [Nat.mod_eq_of_lt one_lt_W]

theorem wrapSub_mod_one {n : Nat} (h : 1 ≤ n) : wrapSub (n % W) 1 = (n - 1) % W := by
  have hW : 1 ≤ W := le_of_lt one_lt_W
  show (n % W + (W - 1 % W)) % W = (n - 1) % W
  rw [Nat.mod_eq_of_lt one_lt_W, Nat.mod_add_mod]
  have h4 : n + (W - 1) = (n - 1) + W := by omega
  rw [h4, Nat.add_mod_right]

/-! ### Claim C9: discard is pop with a null destination -/

/-- Claim C9: `BLI_stack_discard` is behaviourally equivalent to
`BLI_stack_pop` with a null `dst`: on every stack state (in particular every
non-empty one) the two compute identical results, hence identical resulting
stack states (same chunk list, same offset, same element count). -/
theorem BLI_stack_discard_eq_pop_null (s : BLI_Stack) :
    BLI_stack_discard s = (BLI_stack_pop s false).map Prod.snd := by
  unfold BLI_stack_discard BLI_stack_pop popRead
  by_cases h : s.chunk_index = 0
  · simp only [h, if_true, if_pos]
    cases s.chunks <;> simp [Except.map]
  · simp [h, Except.map]

/-! ### Claim C10: popping zero elements is a no-op -/

/-- Claim C10: `BLI_stack_pop_n` and `BLI_stack_pop_n_reverse` with `n = 0`
return the state unchanged (chunk list, offset and element count identical)
and write nothing into the destination buffer. -/
theorem BLI_stack_pop_n_zero (s : BLI_Stack) :
    BLI_stack_pop_n s 0 = .ok ([], s) ∧
    BLI_stack_pop_n_reverse s 0 = .ok ([], s) :=
  ⟨rfl, rfl⟩

/-! ### Concrete executions exhibiting the failure cases (claims C1-C6) -/

/-- Claim C2, failing execution: with `elem_size = 1`, `chunk_size = 1`, after
push 10, push 20, pop the stack is non-empty (element 10 remains) but the top
chunk is spent (`chunk_index = 0`).  `BLI_stack_pop` correctly retrieves the
top element 10 from the second chunk, while `BLI_stack_peek` computes the
offset `0 - 1` in `size_t`, i.e. `2^64 - 1`, and designates out-of-bounds
memory instead of the top element's bytes. -/
theorem BLI_stack_peek_spent_top_bug :
    runOps ⟨1, 1, 0, 0, []⟩ [.push [10], .push [20], .pop true] =
      .ok ⟨1, 1, 0, 1, [[20], [10]]⟩ ∧
    BLI_stack_is_empty ⟨1, 1, 0, 1, [[20], [10]]⟩ = false ∧
    BLI_stack_pop ⟨1, 1, 0, 1, [[20], [10]]⟩ true =
      .ok (some [10], ⟨1, 1, 0, 0, [[10]]⟩) ∧
    BLI_stack_peek ⟨1, 1, 0, 1, [[20], [10]]⟩ = .error .oob := by decide

/-- Claim C3, failing execution: with `elem_size = 1`, `chunk_size = 1`, after
push 9, pop the stack is empty but the fully retracted chunk is still
resident as the head of the chunk list.  Calling `BLI_stack_discard` (or pop
with a null destination) on this empty stack does NOT fail the
`assert(old_chunk)` — the resident chunk is non-null — and instead proceeds
into the retract logic, freeing the chunk and wrapping `element_count` to
`2^64 - 1`. -/
theorem BLI_stack_discard_empty_no_assert_bug :
    runOps ⟨1, 1, 0, 0, []⟩ [.push [9], .pop true] = .ok ⟨1, 1, 0, 0, [[9]]⟩ ∧
    BLI_stack_is_empty ⟨1, 1, 0, 0, [[9]]⟩ = true ∧
    BLI_stack_discard ⟨1, 1, 0, 0, [[9]]⟩ = .ok ⟨1, 1, 0, 2 ^ 64 - 1, []⟩ ∧
    BLI_stack_pop ⟨1, 1, 0, 0, [[9]]⟩ false =
      .ok (none, ⟨1, 1, 0, 2 ^ 64 - 1, []⟩) := by decide

/-- Claim C1 counterexample: with `element_size = 2` and `chunk_capacity = 3`
(not a multiple of the element size), pushing the two 2-byte values
`[1, 2], [3, 4]` and popping twice does not yield `[3, 4], [1, 2]`: the
second push writes bytes 2..3 of a 3-byte chunk, overflowing the chunk, so
the run fails instead of producing the claimed output. -/
theorem stack_lifo_cx :
    BLI_stack_new_ex 2 3 = .ok ⟨2, 3, 0, 0, []⟩ ∧
    ((runOps ⟨2, 3, 0, 0, []⟩ [.push [1, 2], .push [3, 4]]).bind
        fun s => (BLI_stack_pop_n s 2).map Prod.fst) = .error .oob ∧
    (Except.error Err.oob : Except Err (List (List Nat))) ≠
      .ok [[3, 4], [1, 2]] := by decide

/-- Claim C4 counterexample: with `element_size = 2` and `chunk_capacity = 3`
(accepted by construction), two `BLI_stack_push_r` calls — well-defined C
executions that perform no data access — leave `chunk_index = 4`, which is
outside the claimed range `[0, chunk_capacity] = [0, 3]`. -/
theorem chunk_index_invariant_cx :
    BLI_stack_new_ex 2 3 = .ok ⟨2, 3, 0, 0, []⟩ ∧
    runOps ⟨2, 3, 0, 0, []⟩ [.pushR, .pushR] = .ok ⟨2, 3, 4, 2, [[0, 0, 0]]⟩ ∧
    ¬((⟨2, 3, 4, 2, [[0, 0, 0]]⟩ : BLI_Stack).chunk_index ≤
        (⟨2, 3, 4, 2, [[0, 0, 0]]⟩ : BLI_Stack).chunk_size) := by decide

/-- Claim C5 counterexample: with `element_size = 1`, `chunk_capacity = 2`,
pushing 5 values then popping all 5 produces the values in reverse push order
without error, but after the final pop one fully retracted chunk is still
resident (3 chunks were allocated, only 2 freed), so the number of chunk
deallocations does not equal the number of allocations at that point. -/
theorem chunk_free_count_cx :
    BLI_stack_new_ex 1 2 = .ok ⟨1, 2, 0, 0, []⟩ ∧
    runOps ⟨1, 2, 0, 0, []⟩
        [.push [10], .push [20], .push [30], .push [40], .push [50]] =
      .ok ⟨1, 2, 1, 5, [[50, 0], [30, 40], [10, 20]]⟩ ∧
    BLI_stack_pop_n ⟨1, 2, 1, 5, [[50, 0], [30, 40], [10, 20]]⟩ 5 =
      .ok ([[50], [40], [30], [20], [10]], ⟨1, 2, 0, 0, [[10, 20]]⟩) ∧
    (⟨1, 2, 0, 0, [[10, 20]]⟩ : BLI_Stack).chunks.length ≠ 0 := by decide

/-- Claim C6 counterexample: with `element_size = 2` and `chunk_capacity = 3`,
the state reached by pushing one element is a legitimate stack state, yet
pushing a further 2-byte value overflows the 3-byte chunk (bytes 2..3), so
`push(x)` followed by `pop` cannot store `x` — the claim fails for a
`chunk_capacity` that is not a multiple of `element_size`. -/
theorem push_pop_roundtrip_cx :
    BLI_stack_new_ex 2 3 = .ok ⟨2, 3, 0, 0, []⟩ ∧
    runOps ⟨2, 3, 0, 0, []⟩ [.push [1, 2]] = .ok ⟨2, 3, 2, 1, [[1, 2, 0]]⟩ ∧
    BLI_stack_push ⟨2, 3, 2, 1, [[1, 2, 0]]⟩ [3, 4] = .error .oob := by decide

/-! ### Abstraction: the logical contents of a stack -/

/-- The first `k` elements stored in a chunk's data array `c` (each `elem`
bytes, element `i` at byte offset `i * elem`), listed topmost (highest
offset) first. -/
def chunkTops (elem : Nat) (c : List Nat) : Nat → List (List Nat)
  | 0 => []
  | k + 1 => (c.drop (k * elem)).take elem :: chunkTops elem c k

/-- The logical contents of a stack, topmost element first: the head chunk
holds `chunk_index / elem_size` elements, every older chunk is full with
`chunk_size / elem_size` elements. -/
def absStack (s : BLI_Stack) : List (List Nat) :=
  match s.chunks with
  | [] => []
  | c :: rest =>
    chunkTops s.elem_size c (s.chunk_index / s.elem_size) ++
      (rest.map fun d => chunkTops s.elem_size d (s.chunk_size / s.elem_size)).flatten

/-- Well-formedness of a stack state, the data-model invariants of the spec:
positive element size, chunk capacity a multiple of it and within `size_t`
range, aligned in-range offset, every resident chunk of the allocated
capacity, no chunks only with offset 0, and the element count (a `size_t`)
consistent with the logical contents. -/
def WF (s : BLI_Stack) : Prop :=
  0 < s.elem_size ∧
  s.elem_size ≤ s.chunk_size ∧
  s.chunk_size < W ∧
  s.chunk_size % s.elem_size = 0 ∧
  s.chunk_index % s.elem_size = 0 ∧
  s.chunk_index ≤ s.chunk_size ∧
  (∀ c ∈ s.chunks, c.length = s.chunk_size) ∧
  (s.chunks = [] → s.chunk_index = 0) ∧
  s.element_count = (absStack s).length % W

instance (s : BLI_Stack) : Decidable (WF s) := by
  unfold WF; infer_instance

/-! ### List helper lemmas -/

theorem take_drop_take_of_le {l : List Nat} {off j len : Nat} (hj : j + len ≤ off) :
    ((l.take off).drop j).take len = (l.drop j).take len := by
  rw [List.drop_take, List.take_take]
  congr 1
  omega

theorem readAt_eq_of_take_eq {l₁ l₂ : List Nat} {off j len : Nat}
    (ht : l₁.take off = l₂.take off) (hj : j + len ≤ off) :
    (l₁.drop j).take len = (l₂.drop j).take len := by
  rw [← take_drop_take_of_le (l := l₁) hj, ht, take_drop_take_of_le hj]

theorem srcBytes_of_length {n : Nat} {v : List Nat} (hv : v.length = n) :
    srcBytes n v = v := by
  subst hv
  simp [srcBytes]

theorem writeBytes_ok {c v : List Nat} {off : Nat} (h : off + v.length ≤ c.length) :
    writeBytes c off v = .ok (c.take off ++ v ++ c.drop (off + v.length)) := by
  simp [writeBytes, h]

theorem length_writeChunk {c v : List Nat} {off : Nat}
    (h : off + v.length ≤ c.length) :
    (c.take off ++ v ++ c.drop (off + v.length)).length = c.length := by
  simp only [List.length_append, List.length_take, List.length_drop]
  omega

theorem take_writeChunk {c v : List Nat} {off : Nat} (h : off ≤ c.length) :
    (c.take off ++ v ++ c.drop (off + v.length)).take off = c.take off := by
  have hl : (c.take off).length = off := by
    rw [List.length_take]; omega
  rw [List.append_assoc, List.take_left' hl]

theorem readAt_writeChunk_same {c v : List Nat} {off : Nat} (h : off ≤ c.length) :
    ((c.take off ++ v ++ c.drop (off + v.length)).drop off).take v.length = v := by
  have hl : (c.take off).length = off := by
    rw [List.length_take]; omega
  rw [List.append_assoc, List.drop_left' hl, List.take_left]

theorem chunkTops_succ (elem : Nat) (c : List Nat) (k : Nat) :
    chunkTops elem c (k + 1) = (c.drop (k * elem)).take elem :: chunkTops elem c k :=
  rfl

theorem length_chunkTops (elem : Nat) (c : List Nat) (k : Nat) :
    (chunkTops elem c k).length = k := by
  induction k with
  | zero => rfl
  | succ k ih => simp [chunkTops_succ, ih]

theorem chunkTops_congr {elem : Nat} {c c' : List Nat} {off : Nat} (k : Nat)
    (ht : c.take off = c'.take off) (hk : k * elem ≤ off) :
    chunkTops elem c k = chunkTops elem c' k := by
  induction k with
  | zero => rfl
  | succ k ih =>
    have hmul : k * elem + elem = (k + 1) * elem := (Nat.succ_mul k elem).symm
    have hk' : k * elem ≤ off := le_trans (by omega) hk
    rw [chunkTops_succ, chunkTops_succ, ih hk']
    congr 1
    exact readAt_eq_of_take_eq ht (by omega)

/-- Between two aligned offsets there is room for a whole element. -/
theorem aligned_add_le {e i c : Nat} (hi : i % e = 0)
    (hc : c % e = 0) (h : i < c) : i + e ≤ c := by
  obtain ⟨a, rfl⟩ := Nat.dvd_of_mod_eq_zero hi
  obtain ⟨b, rfl⟩ := Nat.dvd_of_mod_eq_zero hc
  have hab : a < b := by
    rcases Nat.lt_or_ge a b with hlt | hge
    · exact hlt
    · exact absurd (Nat.mul_le_mul_left e hge) (by omega)
  calc e * a + e = e * (a + 1) := by ring
  _ ≤ e * b := Nat.mul_le_mul_left e hab

/-! ### Shape lemmas: the execution branches of push and pop -/

/-- Push when a fresh chunk is allocated (no chunk, or head chunk full). -/
theorem push_shape_fresh {s : BLI_Stack} {v : List Nat}
    (hcond : s.chunks = [] ∨ s.chunk_index = s.chunk_size)
    (hv : v.length = s.elem_size) (hle : s.elem_size ≤ s.chunk_size) :
    BLI_stack_push s v =
      .ok { s with
              chunks := (v ++ List.replicate (s.chunk_size - s.elem_size) 0) :: s.chunks
              chunk_index := wrapAdd 0 s.elem_size
              element_count := wrapAdd s.element_count 1 } := by
  have hw : writeBytes (List.replicate s.chunk_size 0) 0 (srcBytes s.elem_size v) =
      .ok (v ++ List.replicate (s.chunk_size - s.elem_size) 0) := by
    rw [srcBytes_of_length hv]
    rw [writeBytes_ok (by simp [hv]; omega)]
    simp [hv, List.drop_replicate]
  simp only [BLI_stack_push, BLI_stack_push_r, if_pos hcond, hw]

/-- Push into free space of the existing head chunk. -/
theorem push_shape_within {s : BLI_Stack} {v c : List Nat} {rest : List (List Nat)}
    (hch : s.chunks = c :: rest)
    (hcond : ¬(s.chunks = [] ∨ s.chunk_index = s.chunk_size))
    (hv : v.length = s.elem_size)
    (hroom : s.chunk_index + s.elem_size ≤ c.length) :
    BLI_stack_push s v =
      .ok { s with
              chunks := (c.take s.chunk_index ++ v ++
                c.drop (s.chunk_index + s.elem_size)) :: rest
              chunk_index := wrapAdd s.chunk_index s.elem_size
              element_count := wrapAdd s.element_count 1 } := by
  have hw : writeBytes c s.chunk_index (srcBytes s.elem_size v) =
      .ok (c.take s.chunk_index ++ v ++ c.drop (s.chunk_index + s.elem_size)) := by
    rw [srcBytes_of_length hv]
    rw [writeBytes_ok (by omega)]
    rw [hv]
  have hcond' : ¬(c :: rest = [] ∨ s.chunk_index = s.chunk_size) := by
    rw [← hch]; exact hcond
  simp only [BLI_stack_push, BLI_stack_push_r, hch, if_neg hcond', hw]

/-- Pop with a non-null destination when the head chunk still holds bytes. -/
theorem pop_shape_within {s : BLI_Stack} {c : List Nat} {rest : List (List Nat)}
    (hch : s.chunks = c :: rest) (hidx : s.chunk_index ≠ 0)
    (hread : wrapSub s.chunk_index s.elem_size + s.elem_size ≤ c.length) :
    BLI_stack_pop s true =
      .ok (some ((c.drop (wrapSub s.chunk_index s.elem_size)).take s.elem_size),
        { s with
            chunk_index := wrapSub s.chunk_index s.elem_size
            element_count := wrapSub s.element_count 1 }) := by
  simp only [BLI_stack_pop, popRead, readBytes, if_neg hidx, hch, if_pos hread,
    if_true]

/-- Pop with a non-null destination when the head chunk is spent: free it,
promote its successor and read from the promoted chunk. -/
theorem pop_shape_promote {s : BLI_Stack} {c0 c1 : List Nat}
    {rest : List (List Nat)}
    (hch : s.chunks = c0 :: c1 :: rest) (hidx : s.chunk_index = 0)
    (hread : wrapSub s.chunk_size s.elem_size + s.elem_size ≤ c1.length) :
    BLI_stack_pop s true =
      .ok (some ((c1.drop (wrapSub s.chunk_size s.elem_size)).take s.elem_size),
        { s with
            chunks := c1 :: rest
            chunk_index := wrapSub s.chunk_size s.elem_size
            element_count := wrapSub s.element_count 1 }) := by
  simp only [BLI_stack_pop, popRead, readBytes, if_pos hidx, hch, if_pos hread,
    if_true]

/-! ### Step lemmas: push and pop on well-formed states -/

theorem push_ok {s : BLI_Stack} {v : List Nat} (hWF : WF s)
    (hv : v.length = s.elem_size) :
    ∃ s', BLI_stack_push s v = .ok s' ∧ absStack s' = v :: absStack s ∧
      WF s' ∧ s'.elem_size = s.elem_size ∧ s'.chunk_size = s.chunk_size := by
  obtain ⟨he, hec, hcW, hcm, him, hib, hlen, hemp, hcnt⟩ := hWF
  by_cases hcond : s.chunks = [] ∨ s.chunk_index = s.chunk_size
  · -- a fresh chunk is allocated
    have hwa : wrapAdd 0 s.elem_size = s.elem_size := by
      rw [wrapAdd_eq_add (by omega)]; omega
    refine ⟨{ s with
        chunks := (v ++ List.replicate (s.chunk_size - s.elem_size) 0) :: s.chunks
        chunk_index := s.elem_size
        element_count := wrapAdd s.element_count 1 }, ?_, ?_, ?_, rfl, rfl⟩
    · rw [push_shape_fresh hcond hv hec, hwa]
    · -- contents gain `v` on top
      have hdiv : s.elem_size / s.elem_size = 1 := Nat.div_self he
      have htake : (v ++ List.replicate (s.chunk_size - s.elem_size) 0).take
          s.elem_size = v := List.take_left' hv
      simp only [absStack, hdiv, chunkTops, Nat.zero_mul, List.drop_zero, htake,
        List.map_cons, List.flatten_cons, List.nil_append, List.singleton_append]
      rcases hcond with hch | hidx
      · simp [absStack, hch]
      · cases hch : s.chunks with
        | nil =>
          have h0 : s.chunk_index = 0 := hemp hch
          omega
        | cons c0 rest =>
          simp [absStack, hch, ← hidx]
    · -- well-formedness is preserved
      have habs : absStack { s with
          chunks := (v ++ List.replicate (s.chunk_size - s.elem_size) 0) :: s.chunks
          chunk_index := s.elem_size
          element_count := wrapAdd s.element_count 1 } = v :: absStack s := by
        have hdiv : s.elem_size / s.elem_size = 1 := Nat.div_self he
        have htake : (v ++ List.replicate (s.chunk_size - s.elem_size) 0).take
            s.elem_size = v := List.take_left' hv
        simp only [absStack, hdiv, chunkTops, Nat.zero_mul, List.drop_zero, htake,
          List.map_cons, List.flatten_cons, List.nil_append, List.singleton_append]
        rcases hcond with hch | hidx
        · simp [absStack, hch]
        · cases hch : s.chunks with
          | nil =>
            have h0 : s.chunk_index = 0 := hemp hch
            omega
          | cons c0 rest =>
            simp [absStack, hch, ← hidx]
      refine ⟨he, hec, hcW, hcm, Nat.mod_self _, hec, ?_, by simp, ?_⟩
      · intro c hc
        rcases List.mem_cons.mp hc with hc | hc
        · subst hc; simp [hv]; omega
        · exact hlen c hc
      · rw [habs, hcnt]
        simp [wrapAdd_mod_one, List.length_cons]
  · -- the element goes into free space of the head chunk
    cases hch : s.chunks with
    | nil => exact absurd (Or.inl hch) hcond
    | cons c0 rest =>
      have hidx : s.chunk_index ≠ s.chunk_size := fun h => hcond (Or.inr h)
      have hlt : s.chunk_index < s.chunk_size := lt_of_le_of_ne hib hidx
      have hroom : s.chunk_index + s.elem_size ≤ s.chunk_size :=
        aligned_add_le him hcm hlt
      have hc0 : c0.length = s.chunk_size :=
        hlen c0 (by rw [hch]; exact List.mem_cons_self c0 rest)
      have hroomc : s.chunk_index + s.elem_size ≤ c0.length := by omega
      have hwa : wrapAdd s.chunk_index s.elem_size = s.chunk_index + s.elem_size :=
        wrapAdd_eq_add (by omega)
      have hm : s.chunk_index / s.elem_size * s.elem_size = s.chunk_index :=
        Nat.div_mul_cancel (Nat.dvd_of_mod_eq_zero him)
      have habs : absStack { s with
          chunks := (c0.take s.chunk_index ++ v ++
            c0.drop (s.chunk_index + s.elem_size)) :: rest
          chunk_index := s.chunk_index + s.elem_size
          element_count := wrapAdd s.element_count 1 } = v :: absStack s := by
        have hdiv : (s.chunk_index + s.elem_size) / s.elem_size =
            s.chunk_index / s.elem_size + 1 := Nat.add_div_right _ he
        have hread : ((c0.take s.chunk_index ++ v ++
            c0.drop (s.chunk_index + s.elem_size)).drop s.chunk_index).take
              s.elem_size = v := by
          rw [← hv]
          exact readAt_writeChunk_same (by omega)
        have htw : (c0.take s.chunk_index ++ v ++
            c0.drop (s.chunk_index + v.length)).take s.chunk_index =
            c0.take s.chunk_index := take_writeChunk (by omega)
        rw [hv] at htw
        have hcongr : chunkTops s.elem_size (c0.take s.chunk_index ++ v ++
            c0.drop (s.chunk_index + s.elem_size)) (s.chunk_index / s.elem_size) =
            chunkTops s.elem_size c0 (s.chunk_index / s.elem_size) :=
          chunkTops_congr _ htw (le_of_eq hm)
        simp only [absStack, hch, hdiv, chunkTops_succ, hm, hread, hcongr]
        rfl
      refine ⟨{ s with
          chunks := (c0.take s.chunk_index ++ v ++
            c0.drop (s.chunk_index + s.elem_size)) :: rest
          chunk_index := s.chunk_index + s.elem_size
          element_count := wrapAdd s.element_count 1 }, ?_, habs, ?_, rfl, rfl⟩
      · rw [push_shape_within hch hcond hv hroomc, hwa]
      · refine ⟨he, hec, hcW, hcm, by simp [Nat.add_mod_right, him], hroom, ?_,
          by simp, ?_⟩
        · intro c hc
          rcases List.mem_cons.mp hc with hc | hc
          · subst hc
            rw [show s.chunk_index + s.elem_size = s.chunk_index + v.length
              by omega]
            rw [length_writeChunk (by omega)]
            exact hc0
          · exact hlen c (by rw [hch]; exact List.mem_cons_of_mem c0 hc)
        · rw [habs, hcnt]
          simp [wrapAdd_mod_one, List.length_cons]

/-- Unfold `absStack` when the chunk list is known to be empty. -/
theorem absStack_nil {s : BLI_Stack} (hch : s.chunks = []) : absStack s = [] := by
  simp [absStack, hch]

/-- Unfold `absStack` when the chunk list is known to be a cons. -/
theorem absStack_cons {s : BLI_Stack} {c0 : List Nat} {rest : List (List Nat)}
    (hch : s.chunks = c0 :: rest) :
    absStack s = chunkTops s.elem_size c0 (s.chunk_index / s.elem_size) ++
      (rest.map fun d =>
        chunkTops s.elem_size d (s.chunk_size / s.elem_size)).flatten := by
  simp [absStack, hch]

theorem pop_ok {s : BLI_Stack} {v : List Nat} {l : List (List Nat)} (hWF : WF s)
    (habs : absStack s = v :: l) :
    ∃ s', BLI_stack_pop s true = .ok (some v, s') ∧ absStack s' = l ∧
      WF s' ∧ s'.elem_size = s.elem_size ∧ s'.chunk_size = s.chunk_size := by
  obtain ⟨he, hec, hcW, hcm, him, hib, hlen, hemp, hcnt⟩ := hWF
  have hlen1 : (absStack s).length = l.length + 1 := by rw [habs]; simp
  cases hch : s.chunks with
  | nil => rw [absStack_nil hch] at habs; simp at habs
  | cons c0 rest =>
    by_cases hidx : s.chunk_index = 0
    · -- the head chunk is spent: free it and pop from the promoted successor
      have hdiv0 : s.chunk_index / s.elem_size = 0 := by
        rw [hidx]; exact Nat.zero_div _
      have habs' : (rest.map fun d =>
          chunkTops s.elem_size d (s.chunk_size / s.elem_size)).flatten =
          v :: l := by
        rw [absStack_cons hch, hdiv0] at habs
        simpa [chunkTops] using habs
      cases hre : rest with
      | nil => rw [hre] at habs'; simp at habs'
      | cons c1 rest2 =>
        have hch' : s.chunks = c0 :: c1 :: rest2 := by rw [hch, hre]
        have hK : 1 ≤ s.chunk_size / s.elem_size := (Nat.one_le_div_iff he).mpr hec
        have hKs : s.chunk_size / s.elem_size =
            (s.chunk_size / s.elem_size - 1) + 1 := by omega
        have hcsm : s.chunk_size / s.elem_size * s.elem_size = s.chunk_size :=
          Nat.div_mul_cancel (Nat.dvd_of_mod_eq_zero hcm)
        have hsub : s.chunk_size - s.elem_size =
            (s.chunk_size / s.elem_size - 1) * s.elem_size := by
          conv_rhs => rw [Nat.sub_mul, Nat.one_mul, hcsm]
        have hwsub : wrapSub s.chunk_size s.elem_size =
            s.chunk_size - s.elem_size := wrapSub_eq_sub hec hcW
        have hmem1 : c1 ∈ s.chunks := by
          rw [hch']
          exact List.mem_cons_of_mem c0 (List.mem_cons_self c1 rest2)
        have hc1 : c1.length = s.chunk_size := hlen c1 hmem1
        have hread : wrapSub s.chunk_size s.elem_size + s.elem_size ≤
            c1.length := by
          rw [hwsub]; omega
        rw [hre, List.map_cons, List.flatten_cons] at habs'
        nth_rewrite 1 [hKs] at habs'
        rw [chunkTops_succ, List.cons_append] at habs'
        have hv' : (c1.drop ((s.chunk_size / s.elem_size - 1) *
            s.elem_size)).take s.elem_size = v := (List.cons_eq_cons.mp habs').1
        have hl' : chunkTops s.elem_size c1 (s.chunk_size / s.elem_size - 1) ++
            (rest2.map fun d =>
              chunkTops s.elem_size d (s.chunk_size / s.elem_size)).flatten =
            l := (List.cons_eq_cons.mp habs').2
        have habs2 : absStack { s with
            chunks := c1 :: rest2
            chunk_index := s.chunk_size - s.elem_size
            element_count := wrapSub s.element_count 1 } = l := by
          have hdiv : (s.chunk_size - s.elem_size) / s.elem_size =
              s.chunk_size / s.elem_size - 1 := by
            rw [hsub, Nat.mul_div_cancel _ he]
          rw [absStack_cons (s := { s with
            chunks := c1 :: rest2
            chunk_index := s.chunk_size - s.elem_size
            element_count := wrapSub s.element_count 1 }) rfl]
          simpa [hdiv] using hl'
        refine ⟨{ s with
            chunks := c1 :: rest2
            chunk_index := s.chunk_size - s.elem_size
            element_count := wrapSub s.element_count 1 }, ?_, habs2, ?_, rfl, rfl⟩
        · rw [pop_shape_promote hch' hidx hread, hwsub, hsub, hv']
        · refine ⟨he, hec, hcW, hcm, ?_, Nat.sub_le _ _, ?_, by simp, ?_⟩
          · rw [hsub]; exact Nat.mul_mod_left _ _
          · intro c hc
            refine hlen c ?_
            rw [hch']
            exact List.mem_cons_of_mem c0 hc
          · rw [habs2, hcnt, hlen1, wrapSub_mod_one (by omega)]
            simp
    · -- the head chunk still holds bytes: pop from it in place
      have hgem : s.elem_size ≤ s.chunk_index := by
        rcases Nat.eq_zero_or_pos s.chunk_index with h0 | hpos
        · exact absurd h0 hidx
        · exact Nat.le_of_dvd hpos (Nat.dvd_of_mod_eq_zero him)
      have hm1 : 1 ≤ s.chunk_index / s.elem_size :=
        (Nat.one_le_div_iff he).mpr hgem
      have hms : s.chunk_index / s.elem_size =
          (s.chunk_index / s.elem_size - 1) + 1 := by omega
      have hmm : s.chunk_index / s.elem_size * s.elem_size = s.chunk_index :=
        Nat.div_mul_cancel (Nat.dvd_of_mod_eq_zero him)
      have hsub : s.chunk_index - s.elem_size =
          (s.chunk_index / s.elem_size - 1) * s.elem_size := by
        conv_rhs => rw [Nat.sub_mul, Nat.one_mul, hmm]
      have hwsub : wrapSub s.chunk_index s.elem_size =
          s.chunk_index - s.elem_size := wrapSub_eq_sub hgem (by omega)
      have hc0 : c0.length = s.chunk_size :=
        hlen c0 (by rw [hch]; exact List.mem_cons_self c0 rest)
      have hread : wrapSub s.chunk_index s.elem_size + s.elem_size ≤
          c0.length := by
        rw [hwsub]; omega
      rw [absStack_cons hch, hms, chunkTops_succ, List.cons_append] at habs
      have hv' : (c0.drop ((s.chunk_index / s.elem_size - 1) *
          s.elem_size)).take s.elem_size = v := (List.cons_eq_cons.mp habs).1
      have hl' : chunkTops s.elem_size c0 (s.chunk_index / s.elem_size - 1) ++
          (rest.map fun d =>
            chunkTops s.elem_size d (s.chunk_size / s.elem_size)).flatten =
          l := (List.cons_eq_cons.mp habs).2
      have habs2 : absStack { s with
          chunk_index := s.chunk_index - s.elem_size
          element_count := wrapSub s.element_count 1 } = l := by
        have hdiv : (s.chunk_index - s.elem_size) / s.elem_size =
            s.chunk_index / s.elem_size - 1 := by
          rw [hsub, Nat.mul_div_cancel _ he]
        rw [absStack_cons (s := { s with
          chunk_index := s.chunk_index - s.elem_size
          element_count := wrapSub s.element_count 1 }) hch]
        simpa [hdiv] using hl'
      refine ⟨{ s with
          chunk_index := s.chunk_index - s.elem_size
          element_count := wrapSub s.element_count 1 }, ?_, habs2, ?_, rfl, rfl⟩
      · rw [pop_shape_within hch hidx hread, hwsub, hsub, hv']
      · refine ⟨he, hec, hcW, hcm, ?_, le_trans (Nat.sub_le _ _) hib, hlen,
          ?_, ?_⟩
        · rw [hsub]; exact Nat.mul_mod_left _ _
        · intro hnil
          exact absurd (hch ▸ hnil) (by simp)
        · rw [habs2, hcnt, hlen1, wrapSub_mod_one (by omega)]
          simp

/-! ### Sequence lemmas -/

theorem runPushes_ok {vs : List (List Nat)} {s : BLI_Stack} (hWF : WF s)
    (hvs : ∀ v ∈ vs, v.length = s.elem_size) :
    ∃ s', runOps s (vs.map StackOp.push) = .ok s' ∧
      absStack s' = vs.reverse ++ absStack s ∧ WF s' ∧
      s'.elem_size = s.elem_size ∧ s'.chunk_size = s.chunk_size := by
  induction vs generalizing s with
  | nil => exact ⟨s, rfl, by simp, hWF, rfl, rfl⟩
  | cons v vs ih =>
    obtain ⟨s1, hpush, habs1, hWF1, he1, hc1⟩ :=
      push_ok hWF (hvs v (List.mem_cons_self _ _))
    obtain ⟨s2, hrun, habs2, hWF2, he2, hc2⟩ := ih hWF1 (fun w hw => by
      rw [he1]; exact hvs w (List.mem_cons_of_mem _ hw))
    refine ⟨s2, ?_, ?_, hWF2, he2.trans he1, hc2.trans hc1⟩
    · simp only [List.map_cons, runOps, applyOp, hpush]
      exact hrun
    · rw [habs2, habs1]
      simp

theorem popN_ok {n : Nat} {s : BLI_Stack} (hWF : WF s)
    (hn : n ≤ (absStack s).length) :
    ∃ s', BLI_stack_pop_n s n = .ok ((absStack s).take n, s') ∧
      absStack s' = (absStack s).drop n ∧ WF s' ∧
      s'.elem_size = s.elem_size ∧ s'.chunk_size = s.chunk_size := by
  induction n generalizing s with
  | zero => exact ⟨s, by simp [BLI_stack_pop_n], by simp, hWF, rfl, rfl⟩
  | succ n ih =>
    cases habs : absStack s with
    | nil => rw [habs] at hn; simp at hn
    | cons v l =>
      obtain ⟨s1, hpop, habs1, hWF1, he1, hc1⟩ := pop_ok hWF habs
      have hn1 : n ≤ (absStack s1).length := by
        rw [habs1]
        rw [habs] at hn
        simpa using Nat.le_of_succ_le_succ hn
      obtain ⟨s2, hrec, habs2, hWF2, he2, hc2⟩ := ih hWF1 hn1
      refine ⟨s2, ?_, ?_, hWF2, he2.trans he1, hc2.trans hc1⟩
      · simp only [BLI_stack_pop_n, hpop, hrec, habs, habs1, List.take_succ_cons]
      · rw [habs2, habs1]
        simp

theorem popNRev_ok {n : Nat} {s : BLI_Stack} (hWF : WF s)
    (hn : n ≤ (absStack s).length) :
    ∃ s', BLI_stack_pop_n_reverse s n = .ok (((absStack s).take n).reverse, s') ∧
      absStack s' = (absStack s).drop n ∧ WF s' ∧
      s'.elem_size = s.elem_size ∧ s'.chunk_size = s.chunk_size := by
  induction n generalizing s with
  | zero => exact ⟨s, by simp [BLI_stack_pop_n_reverse], by simp, hWF, rfl, rfl⟩
  | succ n ih =>
    cases habs : absStack s with
    | nil => rw [habs] at hn; simp at hn
    | cons v l =>
      obtain ⟨s1, hpop, habs1, hWF1, he1, hc1⟩ := pop_ok hWF habs
      have hn1 : n ≤ (absStack s1).length := by
        rw [habs1]
        rw [habs] at hn
        simpa using Nat.le_of_succ_le_succ hn
      obtain ⟨s2, hrec, habs2, hWF2, he2, hc2⟩ := ih hWF1 hn1
      refine ⟨s2, ?_, ?_, hWF2, he2.trans he1, hc2.trans hc1⟩
      · simp only [BLI_stack_pop_n_reverse, hpop, hrec, habs, habs1,
          List.take_succ_cons, List.reverse_cons]
      · rw [habs2, habs1]
        simp

/-! ### A freshly created stack is well-formed -/

theorem new_ex_ok {elem cap : Nat} {s0 : BLI_Stack} (he : 0 < elem)
    (hnew : BLI_stack_new_ex elem cap = .ok s0) :
    s0.elem_size = elem ∧ s0.chunk_index = 0 ∧ s0.element_count = 0 ∧
    s0.chunks = [] ∧
    s0.chunk_size = (if 0 < cap then cap else (1024 * elem) % W) := by
  unfold BLI_stack_new_ex at hnew
  rw [if_neg (by omega)] at hnew
  cases hnew
  exact ⟨rfl, rfl, rfl, rfl, rfl⟩

theorem WF_new_ex {elem cap : Nat} {s0 : BLI_Stack} (he : 0 < elem)
    (hcap : cap < W) (hnew : BLI_stack_new_ex elem cap = .ok s0)
    (hmul : s0.chunk_size % elem = 0) (hpos : 0 < s0.chunk_size) :
    WF s0 ∧ s0.elem_size = elem ∧ absStack s0 = [] := by
  obtain ⟨h1, h2, h3, h4, h5⟩ := new_ex_ok he hnew
  have hcsW : s0.chunk_size < W := by
    rw [h5]; split
    · exact hcap
    · exact Nat.mod_lt _ W_pos
  have habs : absStack s0 = [] := absStack_nil h4
  refine ⟨⟨by rw [h1]; exact he, ?_, hcsW, by rw [h1]; exact hmul, ?_, ?_, ?_,
    fun _ => h2, ?_⟩, h1, habs⟩
  · rw [h1]; exact Nat.le_of_dvd hpos (Nat.dvd_of_mod_eq_zero hmul)
  · rw [h2]; simp
  · rw [h2]; exact Nat.zero_le _
  · intro c hc
    rw [h4] at hc
    cases hc
  · rw [h3, habs]
    rfl

/-! ### Claim C1: LIFO order -/

/-- Claim C1 (amended): LIFO order.  For every `element_size > 0` and every
sequence of values of `element_size` bytes each, pushing them in order onto a
freshly created stack and then popping that many times yields them in reverse
push order — for every `chunk_capacity` (within `size_t` range) whose
effective chunk size (the capacity itself, or the default when 0 is passed)
is a positive multiple of `element_size`. -/
theorem stack_lifo (elem cap : Nat) (vs : List (List Nat)) (s0 : BLI_Stack)
    (he : 0 < elem) (hcap : cap < W)
    (hnew : BLI_stack_new_ex elem cap = .ok s0)
    (hmul : s0.chunk_size % elem = 0) (hpos : 0 < s0.chunk_size)
    (hvs : ∀ v ∈ vs, v.length = elem) :
    ∃ s1 s2, runOps s0 (vs.map StackOp.push) = .ok s1 ∧
      BLI_stack_pop_n s1 vs.length = .ok (vs.reverse, s2) ∧
      absStack s2 = [] := by
  obtain ⟨hWF0, he0, habs0⟩ := WF_new_ex he hcap hnew hmul hpos
  obtain ⟨s1, hrun, habs1, hWF1, he1, hc1⟩ :=
    runPushes_ok hWF0 (fun v hv => by rw [he0]; exact hvs v hv)
  have habs1' : absStack s1 = vs.reverse := by
    rw [habs1, habs0, List.append_nil]
  have hlen : vs.length ≤ (absStack s1).length := by rw [habs1']; simp
  obtain ⟨s2, hpopn, habs2, hWF2, _, _⟩ := popN_ok hWF1 hlen
  refine ⟨s1, s2, hrun, ?_, ?_⟩
  · rw [hpopn, habs1']
    congr 1
    rw [← List.length_reverse vs, List.take_length]
  · rw [habs2, habs1']
    simp

/-- Witness for the LIFO theorem at a concrete input: `element_size = 1`,
`chunk_capacity = 2`, values 3, 4, 5. -/
theorem stack_lifo_w :
    ∃ s1 s2,
      runOps ⟨1, 2, 0, 0, []⟩ ([[3], [4], [5]].map StackOp.push) = .ok s1 ∧
      BLI_stack_pop_n s1 3 = .ok ([[5], [4], [3]], s2) ∧
      absStack s2 = [] :=
  stack_lifo 1 2 [[3], [4], [5]] ⟨1, 2, 0, 0, []⟩ (by decide) (by decide)
    (by decide) (by decide) (by decide) (by decide)

/-! ### Claim C6: push-pop round trip -/

/-- Claim C6 (amended): round trip.  On every well-formed stack state,
pushing an `element_size`-byte value `x` and immediately popping stores back
a value bit-identical to `x` and restores the element count. -/
theorem stack_push_pop_roundtrip (s : BLI_Stack) (x : List Nat) (hWF : WF s)
    (hx : x.length = s.elem_size) :
    ∃ s1 s2, BLI_stack_push s x = .ok s1 ∧
      BLI_stack_pop s1 true = .ok (some x, s2) ∧
      BLI_stack_count s2 = BLI_stack_count s := by
  obtain ⟨s1, hpush, habs1, hWF1, he1, hc1⟩ := push_ok hWF hx
  obtain ⟨s2, hpop, habs2, hWF2, _, _⟩ := pop_ok hWF1 habs1
  refine ⟨s1, s2, hpush, hpop, ?_⟩
  obtain ⟨_, _, _, _, _, _, _, _, hcnt2⟩ := hWF2
  obtain ⟨_, _, _, _, _, _, _, _, hcnt⟩ := hWF
  rw [BLI_stack_count, BLI_stack_count, hcnt2, hcnt, habs2]

/-- Witness for the round-trip theorem: a well-formed one-element stack with
`element_size = 1`, `chunk_capacity = 2`, pushing the byte 9. -/
theorem stack_push_pop_roundtrip_w :
    ∃ s1 s2, BLI_stack_push ⟨1, 2, 1, 1, [[7, 0]]⟩ [9] = .ok s1 ∧
      BLI_stack_pop s1 true = .ok (some [9], s2) ∧
      BLI_stack_count s2 = BLI_stack_count ⟨1, 2, 1, 1, [[7, 0]]⟩ :=
  stack_push_pop_roundtrip ⟨1, 2, 1, 1, [[7, 0]]⟩ [9] (by decide) (by decide)

/-! ### Claim C8: pop_n versus pop_n_reverse -/

/-- Claim C8: on a well-formed stack holding at least `n` elements,
`BLI_stack_pop_n` returns the `n` topmost elements in pop order (index 0 is
the original top), `BLI_stack_pop_n_reverse` returns the same elements in
original push order (their reverse), and both leave the stack with `n` fewer
elements. -/
theorem stack_pop_n_orders (s : BLI_Stack) (n : Nat) (hWF : WF s)
    (hn : n ≤ (absStack s).length) :
    ∃ s1 s2, BLI_stack_pop_n s n = .ok ((absStack s).take n, s1) ∧
      BLI_stack_pop_n_reverse s n = .ok (((absStack s).take n).reverse, s2) ∧
      absStack s1 = (absStack s).drop n ∧ absStack s2 = (absStack s).drop n ∧
      (absStack s1).length = (absStack s).length - n ∧
      (absStack s2).length = (absStack s).length - n := by
  obtain ⟨s1, h1, ha1, _, _, _⟩ := popN_ok hWF hn
  obtain ⟨s2, h2, ha2, _, _, _⟩ := popNRev_ok hWF hn
  exact ⟨s1, s2, h1, h2, ha1, ha2, by rw [ha1]; simp, by rw [ha2]; simp⟩

/-- Witness for pop_n versus pop_n_reverse: a stack holding A=10, B=20, C=30
(pushed in that order, `element_size = 1`): `pop_n 3` yields C, B, A and
`pop_n_reverse 3` yields A, B, C. -/
theorem stack_pop_n_orders_w :
    ∃ s1 s2,
      BLI_stack_pop_n ⟨1, 4, 3, 3, [[10, 20, 30, 0]]⟩ 3 =
        .ok ([[30], [20], [10]], s1) ∧
      BLI_stack_pop_n_reverse ⟨1, 4, 3, 3, [[10, 20, 30, 0]]⟩ 3 =
        .ok ([[10], [20], [30]], s2) ∧
      absStack s1 = [] ∧ absStack s2 = [] ∧
      (absStack s1).length = 0 ∧ (absStack s2).length = 0 :=
  stack_pop_n_orders ⟨1, 4, 3, 3, [[10, 20, 30, 0]]⟩ 3 (by decide) (by decide)

/-! ### Claim C4: the chunk-index alignment and bound invariant -/

/-- Subtracting one element from an aligned offset keeps it aligned. -/
theorem aligned_sub_mod {e c : Nat} (hc : c % e = 0) : (c - e) % e = 0 := by
  obtain ⟨m, rfl⟩ := Nat.dvd_of_mod_eq_zero hc
  cases m with
  | zero => simp
  | succ m =>
    have hem : e * (m + 1) - e = e * m := by ring_nf; omega
    rw [hem]
    exact Nat.mul_mod_right e m

/-- The offset invariant: element size and chunk size are fixed, the offset
is a multiple of the element size and lies in `[0, chunk_size]`. -/
def IdxInv (elem cs : Nat) (s : BLI_Stack) : Prop :=
  s.elem_size = elem ∧ s.chunk_size = cs ∧
  s.chunk_index % elem = 0 ∧ s.chunk_index ≤ cs

theorem IdxInv_push_r {elem cs : Nat} {s : BLI_Stack}
    (hle : elem ≤ cs) (hmul : cs % elem = 0) (hcsW : cs < W)
    (h : IdxInv elem cs s) : IdxInv elem cs (BLI_stack_push_r s).1 := by
  obtain ⟨h1, h2, h3, h4⟩ := h
  have hwa0 : wrapAdd 0 s.elem_size = elem := by
    rw [h1, wrapAdd_eq_add (by omega), Nat.zero_add]
  unfold BLI_stack_push_r
  by_cases hcond : s.chunks = [] ∨ s.chunk_index = s.chunk_size
  · rw [if_pos hcond]
    refine ⟨h1, h2, ?_, ?_⟩
    · show wrapAdd 0 s.elem_size % elem = 0
      rw [hwa0, Nat.mod_self]
    · show wrapAdd 0 s.elem_size ≤ cs
      rw [hwa0]; exact hle
  · rw [if_neg hcond]
    have hidx : s.chunk_index ≠ s.chunk_size := fun hh => hcond (Or.inr hh)
    have hlt : s.chunk_index < cs := lt_of_le_of_ne h4 (h2 ▸ hidx)
    have hroom : s.chunk_index + elem ≤ cs := aligned_add_le h3 hmul hlt
    have hwa : wrapAdd s.chunk_index s.elem_size = s.chunk_index + elem := by
      rw [h1, wrapAdd_eq_add (by omega)]
    refine ⟨h1, h2, ?_, ?_⟩
    · show wrapAdd s.chunk_index s.elem_size % elem = 0
      rw [hwa, Nat.add_mod_right, h3]
    · show wrapAdd s.chunk_index s.elem_size ≤ cs
      rw [hwa]; exact hroom

/-- The state produced by a successful `BLI_stack_push` has the fields
computed by `BLI_stack_push_r` (only chunk data differs). -/
theorem push_state {s s' : BLI_Stack} {v : List Nat}
    (hp : BLI_stack_push s v = .ok s') :
    s'.elem_size = (BLI_stack_push_r s).1.elem_size ∧
    s'.chunk_size = (BLI_stack_push_r s).1.chunk_size ∧
    s'.chunk_index = (BLI_stack_push_r s).1.chunk_index ∧
    s'.element_count = (BLI_stack_push_r s).1.element_count := by
  unfold BLI_stack_push at hp
  rcases hps : BLI_stack_push_r s with ⟨s1, off⟩
  rw [hps] at hp
  dsimp only at hp
  cases hch : s1.chunks with
  | nil => rw [hch] at hp; cases hp
  | cons c rest =>
    rw [hch] at hp
    dsimp only at hp
    cases hw : writeBytes c off (srcBytes s1.elem_size v) with
    | error e => rw [hw] at hp; cases hp
    | ok c' =>
      rw [hw] at hp
      cases hp
      exact ⟨rfl, rfl, rfl, rfl⟩

/-- The state produced by a successful `BLI_stack_pop`: fixed sizes, the
count retracted, and the offset retracted from the promoted-or-current
chunk boundary. -/
theorem pop_state {s s' : BLI_Stack} {b : Bool} {o : Option (List Nat)}
    (hp : BLI_stack_pop s b = .ok (o, s')) :
    s'.elem_size = s.elem_size ∧ s'.chunk_size = s.chunk_size ∧
    s'.element_count = wrapSub s.element_count 1 ∧
    ((s.chunk_index = 0 ∧
        s'.chunk_index = wrapSub s.chunk_size s.elem_size) ∨
     (s.chunk_index ≠ 0 ∧
        s'.chunk_index = wrapSub s.chunk_index s.elem_size)) := by
  unfold BLI_stack_pop popRead at hp
  by_cases hidx : s.chunk_index = 0
  · rw [if_pos hidx] at hp
    cases hch : s.chunks with
    | nil => rw [hch] at hp; cases hp
    | cons c0 rest =>
      rw [hch] at hp
      cases b with
      | false =>
        simp only [Bool.false_eq_true, if_neg, ite_false] at hp
        cases hp
        exact ⟨rfl, rfl, rfl, Or.inl ⟨hidx, rfl⟩⟩
      | true =>
        simp only [if_true, ite_true] at hp
        cases hre : rest with
        | nil => rw [hre] at hp; cases hp
        | cons c1 rest2 =>
          rw [hre] at hp
          dsimp only at hp
          cases hr : readBytes c1 (wrapSub s.chunk_size s.elem_size)
              s.elem_size with
          | error e => rw [hr] at hp; cases hp
          | ok w =>
            rw [hr] at hp
            cases hp
            exact ⟨rfl, rfl, rfl, Or.inl ⟨hidx, rfl⟩⟩
  · rw [if_neg hidx] at hp
    cases b with
    | false =>
      simp only [Bool.false_eq_true, if_neg, ite_false] at hp
      cases hp
      exact ⟨rfl, rfl, rfl, Or.inr ⟨hidx, rfl⟩⟩
    | true =>
      simp only [if_true, ite_true] at hp
      cases hch : s.chunks with
      | nil => rw [hch] at hp; cases hp
      | cons c0 rest =>
        rw [hch] at hp
        dsimp only at hp
        cases hr : readBytes c0 (wrapSub s.chunk_index s.elem_size)
            s.elem_size with
        | error e => rw [hr] at hp; cases hp
        | ok w =>
          rw [hr] at hp
          cases hp
          exact ⟨rfl, rfl, rfl, Or.inr ⟨hidx, rfl⟩⟩

/-- The state produced by a successful `BLI_stack_discard`, in the same
form. -/
theorem discard_state {s s' : BLI_Stack}
    (hp : BLI_stack_discard s = .ok s') :
    s'.elem_size = s.elem_size ∧ s'.chunk_size = s.chunk_size ∧
    s'.element_count = wrapSub s.element_count 1 ∧
    ((s.chunk_index = 0 ∧
        s'.chunk_index = wrapSub s.chunk_size s.elem_size) ∨
     (s.chunk_index ≠ 0 ∧
        s'.chunk_index = wrapSub s.chunk_index s.elem_size)) := by
  unfold BLI_stack_discard at hp
  by_cases hidx : s.chunk_index = 0
  · rw [if_pos hidx] at hp
    cases hch : s.chunks with
    | nil => rw [hch] at hp; cases hp
    | cons c0 rest =>
      rw [hch] at hp
      cases hp
      exact ⟨rfl, rfl, rfl, Or.inl ⟨hidx, rfl⟩⟩
  · rw [if_neg hidx] at hp
    cases hp
    exact ⟨rfl, rfl, rfl, Or.inr ⟨hidx, rfl⟩⟩

theorem IdxInv_of_retract {elem cs : Nat} {s s' : BLI_Stack}
    (hle : elem ≤ cs) (hmul : cs % elem = 0) (hcsW : cs < W)
    (h : IdxInv elem cs s)
    (hst : s'.elem_size = s.elem_size ∧ s'.chunk_size = s.chunk_size ∧
      s'.element_count = wrapSub s.element_count 1 ∧
      ((s.chunk_index = 0 ∧
          s'.chunk_index = wrapSub s.chunk_size s.elem_size) ∨
       (s.chunk_index ≠ 0 ∧
          s'.chunk_index = wrapSub s.chunk_index s.elem_size))) :
    IdxInv elem cs s' := by
  obtain ⟨h1, h2, h3, h4⟩ := h
  obtain ⟨g1, g2, _, g4⟩ := hst
  refine ⟨g1.trans h1, g2.trans h2, ?_, ?_⟩
  · rcases g4 with ⟨hz, hidx'⟩ | ⟨hz, hidx'⟩
    · rw [hidx', h1, h2, wrapSub_eq_sub hle hcsW]
      exact aligned_sub_mod hmul
    · have hpos : 0 < s.chunk_index := Nat.pos_of_ne_zero hz
      have hgem : elem ≤ s.chunk_index :=
        Nat.le_of_dvd hpos (Nat.dvd_of_mod_eq_zero h3)
      rw [hidx', h1, wrapSub_eq_sub hgem (by omega)]
      exact aligned_sub_mod h3
  · rcases g4 with ⟨hz, hidx'⟩ | ⟨hz, hidx'⟩
    · rw [hidx', h1, h2, wrapSub_eq_sub hle hcsW]
      omega
    · have hpos : 0 < s.chunk_index := Nat.pos_of_ne_zero hz
      have hgem : elem ≤ s.chunk_index :=
        Nat.le_of_dvd hpos (Nat.dvd_of_mod_eq_zero h3)
      rw [hidx', h1, wrapSub_eq_sub hgem (by omega)]
      omega

theorem IdxInv_pop {elem cs : Nat} {s s' : BLI_Stack} {b : Bool}
    {o : Option (List Nat)}
    (hle : elem ≤ cs) (hmul : cs % elem = 0) (hcsW : cs < W)
    (h : IdxInv elem cs s) (hp : BLI_stack_pop s b = .ok (o, s')) :
    IdxInv elem cs s' :=
  IdxInv_of_retract hle hmul hcsW h (pop_state hp)

theorem IdxInv_push {elem cs : Nat} {s s' : BLI_Stack} {v : List Nat}
    (hle : elem ≤ cs) (hmul : cs % elem = 0) (hcsW : cs < W)
    (h : IdxInv elem cs s) (hp : BLI_stack_push s v = .ok s') :
    IdxInv elem cs s' := by
  obtain ⟨g1, g2, g3, _⟩ := push_state hp
  obtain ⟨h1, h2, h3, h4⟩ := IdxInv_push_r hle hmul hcsW h
  exact ⟨g1.trans h1, g2.trans h2, g3 ▸ h3, g3 ▸ h4⟩

theorem IdxInv_popN {elem cs : Nat} {n : Nat} {s s' : BLI_Stack}
    {l : List (List Nat)}
    (hle : elem ≤ cs) (hmul : cs % elem = 0) (hcsW : cs < W)
    (h : IdxInv elem cs s) (hp : BLI_stack_pop_n s n = .ok (l, s')) :
    IdxInv elem cs s' := by
  induction n generalizing s l with
  | zero => cases hp; exact h
  | succ n ih =>
    unfold BLI_stack_pop_n at hp
    cases hpop : BLI_stack_pop s true with
    | error e => rw [hpop] at hp; cases hp
    | ok p =>
      rcases p with ⟨o, s1⟩
      rw [hpop] at hp
      cases o with
      | none => cases hp
      | some v =>
        dsimp only at hp
        cases hrec : BLI_stack_pop_n s1 n with
        | error e => rw [hrec] at hp; cases hp
        | ok q =>
          rcases q with ⟨l2, s2⟩
          rw [hrec] at hp
          cases hp
          exact ih (IdxInv_pop hle hmul hcsW h hpop) hrec

theorem IdxInv_popNRev {elem cs : Nat} {n : Nat} {s s' : BLI_Stack}
    {l : List (List Nat)}
    (hle : elem ≤ cs) (hmul : cs % elem = 0) (hcsW : cs < W)
    (h : IdxInv elem cs s) (hp : BLI_stack_pop_n_reverse s n = .ok (l, s')) :
    IdxInv elem cs s' := by
  induction n generalizing s l with
  | zero => cases hp; exact h
  | succ n ih =>
    unfold BLI_stack_pop_n_reverse at hp
    cases hpop : BLI_stack_pop s true with
    | error e => rw [hpop] at hp; cases hp
    | ok p =>
      rcases p with ⟨o, s1⟩
      rw [hpop] at hp
      cases o with
      | none => cases hp
      | some v =>
        dsimp only at hp
        cases hrec : BLI_stack_pop_n_reverse s1 n with
        | error e => rw [hrec] at hp; cases hp
        | ok q =>
          rcases q with ⟨l2, s2⟩
          rw [hrec] at hp
          cases hp
          exact ih (IdxInv_pop hle hmul hcsW h hpop) hrec

theorem IdxInv_applyOp {elem cs : Nat} {s s' : BLI_Stack} {op : StackOp}
    (hle : elem ≤ cs) (hmul : cs % elem = 0) (hcsW : cs < W)
    (h : IdxInv elem cs s) (hp : applyOp s op = .ok s') :
    IdxInv elem cs s' := by
  cases op with
  | push v => exact IdxInv_push hle hmul hcsW h hp
  | pushR => cases hp; exact IdxInv_push_r hle hmul hcsW h
  | pop b =>
    unfold applyOp at hp
    dsimp only at hp
    cases hpop : BLI_stack_pop s b with
    | error e => rw [hpop] at hp; cases hp
    | ok p =>
      rcases p with ⟨o, s1⟩
      rw [hpop] at hp
      cases hp
      exact IdxInv_pop hle hmul hcsW h hpop
  | discard => exact IdxInv_of_retract hle hmul hcsW h (discard_state hp)
  | popN n =>
    unfold applyOp at hp
    dsimp only at hp
    cases hpop : BLI_stack_pop_n s n with
    | error e => rw [hpop] at hp; cases hp
    | ok p =>
      rcases p with ⟨l, s1⟩
      rw [hpop] at hp
      cases hp
      exact IdxInv_popN hle hmul hcsW h hpop
  | popNRev n =>
    unfold applyOp at hp
    dsimp only at hp
    cases hpop : BLI_stack_pop_n_reverse s n with
    | error e => rw [hpop] at hp; cases hp
    | ok p =>
      rcases p with ⟨l, s1⟩
      rw [hpop] at hp
      cases hp
      exact IdxInv_popNRev hle hmul hcsW h hpop
  | clear =>
    cases hp
    obtain ⟨h1, h2, _, _⟩ := h
    exact ⟨h1, h2, by simp [BLI_stack_clear], by simp [BLI_stack_clear]⟩

theorem IdxInv_runOps {elem cs : Nat} {ops : List StackOp} {s s' : BLI_Stack}
    (hle : elem ≤ cs) (hmul : cs % elem = 0) (hcsW : cs < W)
    (h : IdxInv elem cs s) (hp : runOps s ops = .ok s') :
    IdxInv elem cs s' := by
  induction ops generalizing s with
  | nil => cases hp; exact h
  | cons op ops ih =>
    unfold runOps at hp
    cases happ : applyOp s op with
    | error e => rw [happ] at hp; cases hp
    | ok s1 =>
      rw [happ] at hp
      exact ih (IdxInv_applyOp hle hmul hcsW h happ) hp

/-- Claim C4 (amended): in every state reachable from a freshly created
stack by any sequence of push / push_uninitialized / pop / discard / pop_n /
pop_n_reverse / clear operations, the top-chunk offset `chunk_index` is a
multiple of `element_size` and lies in `[0, chunk_capacity]` — for every
`chunk_capacity` (within `size_t` range) whose effective chunk size is a
positive multiple of `element_size`. -/
theorem stack_chunk_index_invariant (elem cap : Nat) (ops : List StackOp)
    (s0 sf : BLI_Stack) (he : 0 < elem) (hcap : cap < W)
    (hnew : BLI_stack_new_ex elem cap = .ok s0)
    (hmul : s0.chunk_size % elem = 0) (hpos : 0 < s0.chunk_size)
    (hrun : runOps s0 ops = .ok sf) :
    sf.chunk_index % sf.elem_size = 0 ∧ sf.chunk_index ≤ sf.chunk_size := by
  obtain ⟨h1, h2, h3, h4, h5⟩ := new_ex_ok he hnew
  have hle : elem ≤ s0.chunk_size :=
    Nat.le_of_dvd hpos (Nat.dvd_of_mod_eq_zero hmul)
  have hcsW : s0.chunk_size < W := by
    rw [h5]; split
    · exact hcap
    · exact Nat.mod_lt _ W_pos
  have h0 : IdxInv elem s0.chunk_size s0 := ⟨h1, rfl, by rw [h2]; simp, by omega⟩
  obtain ⟨g1, g2, g3, g4⟩ := IdxInv_runOps hle hmul hcsW h0 hrun
  rw [g1, g2]
  exact ⟨g3, g4⟩

/-- Witness for the chunk-index invariant: `element_size = 1`,
`chunk_capacity = 2`, a mixed operation sequence. -/
theorem stack_chunk_index_invariant_w :
    (⟨1, 2, 2, 2, [[5, 7]]⟩ : BLI_Stack).chunk_index %
      (⟨1, 2, 2, 2, [[5, 7]]⟩ : BLI_Stack).elem_size = 0 ∧
    (⟨1, 2, 2, 2, [[5, 7]]⟩ : BLI_Stack).chunk_index ≤
      (⟨1, 2, 2, 2, [[5, 7]]⟩ : BLI_Stack).chunk_size :=
  stack_chunk_index_invariant 1 2 [.push [5], .pushR, .pop true, .push [7]]
    ⟨1, 2, 0, 0, []⟩ ⟨1, 2, 2, 2, [[5, 7]]⟩ (by decide) (by decide) (by decide)
    (by decide) (by decide) (by decide)

/-! ### Claim C7: count consistency -/

/-- Is the operation a push (`push` or `push_uninitialized`)? -/
def isPushOp : StackOp → Bool
  | .push _ => true
  | .pushR => true
  | _ => false

/-- Is the operation a single pop or discard? -/
def isPopOp : StackOp → Bool
  | .pop _ => true
  | .discard => true
  | _ => false

/-- Number of pushes in an operation sequence. -/
def pushCount (ops : List StackOp) : Nat := (ops.filter isPushOp).length

/-- Number of pops/discards in an operation sequence. -/
def popCount (ops : List StackOp) : Nat := (ops.filter isPopOp).length

/-- Every pop/discard in the sequence is executed on a non-empty stack
(checked along the actual execution). -/
def popsOnNonEmpty : BLI_Stack → List StackOp → Bool
  | _, [] => true
  | s, op :: ops =>
    (!isPopOp op || !BLI_stack_is_empty s) &&
      (match applyOp s op with
       | .ok s' => popsOnNonEmpty s' ops
       | .error _ => true)

theorem pushCount_cons (op : StackOp) (ops : List StackOp) :
    pushCount (op :: ops) = pushCount ops + (if isPushOp op then 1 else 0) := by
  simp only [pushCount, List.filter_cons]
  split <;> simp [Nat.add_comm]

theorem popCount_cons (op : StackOp) (ops : List StackOp) :
    popCount (op :: ops) = popCount ops + (if isPopOp op then 1 else 0) := by
  simp only [popCount, List.filter_cons]
  split <;> simp [Nat.add_comm]

theorem count_push_r (s : BLI_Stack) :
    ((BLI_stack_push_r s).1).element_count = wrapAdd s.element_count 1 := by
  unfold BLI_stack_push_r
  split <;> rfl

theorem count_push {s s' : BLI_Stack} {v : List Nat}
    (hp : BLI_stack_push s v = .ok s') :
    s'.element_count = wrapAdd s.element_count 1 := by
  obtain ⟨_, _, _, g⟩ := push_state hp
  rw [g, count_push_r]

/-- Along a run of pushes and pops in which every pop hits a non-empty
stack, the element count evolves exactly by the push/pop balance. -/
theorem count_run {ops : List StackOp} {s s' : BLI_Stack}
    (hpp : ∀ op ∈ ops, (isPushOp op || isPopOp op) = true)
    (hne : popsOnNonEmpty s ops = true)
    (hW : s.element_count + pushCount ops < W)
    (hrun : runOps s ops = .ok s') :
    s'.element_count + popCount ops = s.element_count + pushCount ops := by
  induction ops generalizing s with
  | nil => cases hrun; simp [pushCount, popCount]
  | cons op ops ih =>
    unfold runOps at hrun
    cases happ : applyOp s op with
    | error e => rw [happ] at hrun; cases hrun
    | ok s1 =>
      rw [happ] at hrun
      unfold popsOnNonEmpty at hne
      rw [happ] at hne
      rw [Bool.and_eq_true] at hne
      obtain ⟨hne1, hne2⟩ := hne
      have hWc := hW
      rw [pushCount_cons] at hWc
      have hih := fun o ho => hpp o (List.mem_cons_of_mem op ho)
      cases op with
      | push v =>
        rw [show (if isPushOp (StackOp.push v) then 1 else 0) = 1 from rfl]
          at hWc
        have hc1 : s1.element_count = s.element_count + 1 := by
          rw [count_push happ, wrapAdd_eq_add (by omega)]
        have hrec := ih hih hne2 (by omega) hrun
        rw [pushCount_cons, popCount_cons,
          show (if isPushOp (StackOp.push v) then 1 else 0) = 1 from rfl,
          show (if isPopOp (StackOp.push v) then 1 else 0) = 0 from rfl]
        omega
      | pushR =>
        rw [show (if isPushOp StackOp.pushR then 1 else 0) = 1 from rfl] at hWc
        have hs1 : s1 = (BLI_stack_push_r s).1 := by
          unfold applyOp at happ
          cases happ
          rfl
        have hc1 : s1.element_count = s.element_count + 1 := by
          rw [hs1, count_push_r, wrapAdd_eq_add (by omega)]
        have hrec := ih hih hne2 (by omega) hrun
        rw [pushCount_cons, popCount_cons,
          show (if isPushOp StackOp.pushR then 1 else 0) = 1 from rfl,
          show (if isPopOp StackOp.pushR then 1 else 0) = 0 from rfl]
        omega
      | pop b =>
        rw [show (if isPushOp (StackOp.pop b) then 1 else 0) = 0 from rfl]
          at hWc
        have hemp : BLI_stack_is_empty s = false := by
          cases hemp : BLI_stack_is_empty s
          · rfl
          · rw [show isPopOp (StackOp.pop b) = true from rfl, hemp] at hne1
            exact absurd hne1 (by decide)
        have hnz : s.element_count ≠ 0 := by
          simpa [BLI_stack_is_empty] using hemp
        unfold applyOp at happ
        dsimp only at happ
        rcases hpop : BLI_stack_pop s b with e | p
        · rw [hpop] at happ; cases happ
        · rcases p with ⟨o, s2⟩
          rw [hpop] at happ
          cases happ
          obtain ⟨_, _, g3, _⟩ := pop_state hpop
          have hc1 : s1.element_count = s.element_count - 1 := by
            rw [g3, wrapSub_eq_sub (by omega) (by omega)]
          have hrec := ih hih hne2 (by omega) hrun
          rw [pushCount_cons, popCount_cons,
            show (if isPushOp (StackOp.pop b) then 1 else 0) = 0 from rfl,
            show (if isPopOp (StackOp.pop b) then 1 else 0) = 1 from rfl]
          omega
      | discard =>
        rw [show (if isPushOp StackOp.discard then 1 else 0) = 0 from rfl]
          at hWc
        have hemp : BLI_stack_is_empty s = false := by
          cases hemp : BLI_stack_is_empty s
          · rfl
          · rw [show isPopOp StackOp.discard = true from rfl, hemp] at hne1
            exact absurd hne1 (by decide)
        have hnz : s.element_count ≠ 0 := by
          simpa [BLI_stack_is_empty] using hemp
        obtain ⟨_, _, g3, _⟩ := discard_state happ
        have hc1 : s1.element_count = s.element_count - 1 := by
          rw [g3, wrapSub_eq_sub (by omega) (by omega)]
        have hrec := ih hih hne2 (by omega) hrun
        rw [pushCount_cons, popCount_cons,
          show (if isPushOp StackOp.discard then 1 else 0) = 0 from rfl,
          show (if isPopOp StackOp.discard then 1 else 0) = 1 from rfl]
        omega
      | popN n =>
        exact absurd (hpp _ (List.mem_cons_self _ _)) fun h => Bool.noConfusion h
      | popNRev n =>
        exact absurd (hpp _ (List.mem_cons_self _ _)) fun h => Bool.noConfusion h
      | clear =>
        exact absurd (hpp _ (List.mem_cons_self _ _)) fun h => Bool.noConfusion h

/-- Claim C7: count consistency.  Starting from a freshly created stack,
after any interleaving of pushes (`push` / `push_uninitialized`) and
pops/discards in which every pop/discard occurs on a non-empty stack,
`BLI_stack_count` returns the number of pushes minus the number of
pops/discards (within `size_t` range), and `BLI_stack_is_empty` returns true
exactly when the count is 0. -/
theorem stack_count_consistency (elem cap : Nat) (ops : List StackOp)
    (s0 sf : BLI_Stack)
    (hnew : BLI_stack_new_ex elem cap = .ok s0)
    (hpp : ∀ op ∈ ops, (isPushOp op || isPopOp op) = true)
    (hne : popsOnNonEmpty s0 ops = true)
    (hk : pushCount ops < W)
    (hrun : runOps s0 ops = .ok sf) :
    BLI_stack_count sf = pushCount ops - popCount ops ∧
    (BLI_stack_is_empty sf = true ↔ BLI_stack_count sf = 0) := by
  have he : 0 < elem := by
    rcases Nat.eq_zero_or_pos elem with h0 | he
    · unfold BLI_stack_new_ex at hnew
      rw [if_pos h0] at hnew
      cases hnew
    · exact he
  obtain ⟨_, _, h3, _, _⟩ := new_ex_ok he hnew
  have hbal := count_run hpp hne (by omega) hrun
  rw [h3] at hbal
  constructor
  · rw [BLI_stack_count]; omega
  · simp [BLI_stack_is_empty, BLI_stack_count]

/-- Witness for count consistency: `element_size = 1`, `chunk_capacity = 2`,
two pushes and two pops, ending with count `2 - 2 = 0` and an empty stack. -/
theorem stack_count_consistency_w :
    BLI_stack_count ⟨1, 2, 0, 0, [[5, 0]]⟩ =
      pushCount [.push [5], .pushR, .pop true, .discard] -
        popCount [.push [5], .pushR, .pop true, .discard] ∧
    (BLI_stack_is_empty ⟨1, 2, 0, 0, [[5, 0]]⟩ = true ↔
      BLI_stack_count ⟨1, 2, 0, 0, [[5, 0]]⟩ = 0) :=
  stack_count_consistency 1 2 [.push [5], .pushR, .pop true, .discard]
    ⟨1, 2, 0, 0, []⟩ ⟨1, 2, 0, 0, [[5, 0]]⟩ (by decide) (by decide) (by decide)
    (by decide) (by decide)

/-! ### Claim C5: chunk-boundary crossing with two elements per chunk -/

theorem applyOp_push (s : BLI_Stack) (v : List Nat) :
    applyOp s (.push v) = BLI_stack_push s v := rfl

theorem runOps_cons_ok {s s1 s2 : BLI_Stack} {op : StackOp} {ops : List StackOp}
    (h1 : applyOp s op = .ok s1) (h2 : runOps s1 ops = .ok s2) :
    runOps s (op :: ops) = .ok s2 := by
  unfold runOps
  rw [h1]
  exact h2

theorem pop_n_succ {s s1 s2 : BLI_Stack} {v : List Nat} {n : Nat}
    {l : List (List Nat)}
    (hp : BLI_stack_pop s true = .ok (some v, s1))
    (hr : BLI_stack_pop_n s1 n = .ok (l, s2)) :
    BLI_stack_pop_n s (n + 1) = .ok (v :: l, s2) := by
  unfold BLI_stack_pop_n
  rw [hp]
  dsimp only
  rw [hr]

/-- Claim C5 (amended): chunk-boundary crossing.  With
`chunk_capacity = 2 * element_size`, pushing 5 values and then popping all 5
produces no errors and returns the values in reverse push order; three chunks
are allocated along the way, and after the final pop exactly one fully
retracted chunk (the oldest, holding the first two values) is still resident,
so at that point the number of chunk deallocations is one less than the
number of allocations (the last chunk is only freed by a later retraction,
clear, or destroy). -/
theorem stack_chunk_boundary (e : Nat) (v1 v2 v3 v4 v5 : List Nat)
    (he : 0 < e) (hW2 : 2 * e < W)
    (h1 : v1.length = e) (h2 : v2.length = e) (h3 : v3.length = e)
    (h4 : v4.length = e) (h5 : v5.length = e) :
    BLI_stack_new_ex e (2 * e) = .ok ⟨e, 2 * e, 0, 0, []⟩ ∧
    runOps ⟨e, 2 * e, 0, 0, []⟩
        [.push v1, .push v2, .push v3, .push v4, .push v5] =
      .ok ⟨e, 2 * e, e, 5,
        [v5 ++ List.replicate e 0, v3 ++ v4, v1 ++ v2]⟩ ∧
    (⟨e, 2 * e, e, 5, [v5 ++ List.replicate e 0, v3 ++ v4, v1 ++ v2]⟩ :
      BLI_Stack).chunks.length = 3 ∧
    BLI_stack_pop_n
        ⟨e, 2 * e, e, 5, [v5 ++ List.replicate e 0, v3 ++ v4, v1 ++ v2]⟩ 5 =
      .ok ([v5, v4, v3, v2, v1], ⟨e, 2 * e, 0, 0, [v1 ++ v2]⟩) ∧
    (⟨e, 2 * e, 0, 0, [v1 ++ v2]⟩ : BLI_Stack).chunks.length = 1 := by
  have h6W : 6 < W := by decide
  have heW : e < W := by omega
  have ha0e : wrapAdd 0 e = e := by rw [wrapAdd_eq_add (by omega)]; omega
  have haee : wrapAdd e e = 2 * e := by rw [wrapAdd_eq_add (by omega)]; omega
  have hsee : wrapSub e e = 0 := by
    rw [wrapSub_eq_sub (le_refl e) heW]; omega
  have hs2e : wrapSub (2 * e) e = e := by
    rw [wrapSub_eq_sub (by omega) hW2]; omega
  have h2me : 2 * e - e = e := by omega
  have ha01 : wrapAdd 0 1 = 1 := by rw [wrapAdd_eq_add (by omega)]
  have ha11 : wrapAdd 1 1 = 2 := by rw [wrapAdd_eq_add (by omega)]
  have ha21 : wrapAdd 2 1 = 3 := by rw [wrapAdd_eq_add (by omega)]
  have ha31 : wrapAdd 3 1 = 4 := by rw [wrapAdd_eq_add (by omega)]
  have ha41 : wrapAdd 4 1 = 5 := by rw [wrapAdd_eq_add (by omega)]
  have hs51 : wrapSub 5 1 = 4 := by rw [wrapSub_eq_sub (by omega) (by omega)]
  have hs41 : wrapSub 4 1 = 3 := by rw [wrapSub_eq_sub (by omega) (by omega)]
  have hs31 : wrapSub 3 1 = 2 := by rw [wrapSub_eq_sub (by omega) (by omega)]
  have hs21 : wrapSub 2 1 = 1 := by rw [wrapSub_eq_sub (by omega) (by omega)]
  have hs11 : wrapSub 1 1 = 0 := by rw [wrapSub_eq_sub (by omega) (by omega)]
  have htk1 : (v1 ++ List.replicate e 0).take e = v1 := List.take_left' h1
  have htk3 : (v3 ++ List.replicate e 0).take e = v3 := List.take_left' h3
  have htk5 : (v5 ++ List.replicate e 0).take e = v5 := List.take_left' h5
  have hdr12 : (v1 ++ List.replicate e 0).drop (2 * e) = [] :=
    List.drop_eq_nil_of_le (by simp [h1]; omega)
  have hdr34 : (v3 ++ List.replicate e 0).drop (2 * e) = [] :=
    List.drop_eq_nil_of_le (by simp [h3]; omega)
  have hdl34 : (v3 ++ v4).drop e = v4 := List.drop_left' h3
  have hdl12 : (v1 ++ v2).drop e = v2 := List.drop_left' h1
  have htv4 : v4.take e = v4 := by rw [← h4]; exact List.take_length v4
  have htv2 : v2.take e = v2 := by rw [← h2]; exact List.take_length v2
  -- the five pushes
  have hp1 : BLI_stack_push (⟨e, 2 * e, 0, 0, []⟩ : BLI_Stack) v1 =
      .ok ⟨e, 2 * e, e, 1, [v1 ++ List.replicate e 0]⟩ := by
    rw [push_shape_fresh (Or.inl rfl) h1 (show e ≤ 2 * e by omega)]
    simp only [ha0e, ha01, h2me]
  have hp2 : BLI_stack_push
      (⟨e, 2 * e, e, 1, [v1 ++ List.replicate e 0]⟩ : BLI_Stack) v2 =
      .ok ⟨e, 2 * e, 2 * e, 2, [v1 ++ v2]⟩ := by
    rw [push_shape_within rfl
      (show ¬([v1 ++ List.replicate e 0] = [] ∨ e = 2 * e) from by
        rintro (h | h)
        · exact List.noConfusion h
        · omega)
      h2 (show e + e ≤ (v1 ++ List.replicate e 0).length from by
        simp only [List.length_append, List.length_replicate, h1]; omega)]
    simp only [haee, ha11, htk1]
    rw [show (⟨e, 2 * e, e, 1, [v1 ++ List.replicate e 0]⟩ :
        BLI_Stack).chunk_index + (⟨e, 2 * e, e, 1,
        [v1 ++ List.replicate e 0]⟩ : BLI_Stack).elem_size = 2 * e from by
      show e + e = 2 * e
      omega]
    rw [hdr12]
    simp
  have hp3 : BLI_stack_push (⟨e, 2 * e, 2 * e, 2, [v1 ++ v2]⟩ : BLI_Stack) v3 =
      .ok ⟨e, 2 * e, e, 3, [v3 ++ List.replicate e 0, v1 ++ v2]⟩ := by
    rw [push_shape_fresh (Or.inr rfl) h3 (show e ≤ 2 * e by omega)]
    simp only [ha0e, ha21, h2me]
  have hp4 : BLI_stack_push
      (⟨e, 2 * e, e, 3, [v3 ++ List.replicate e 0, v1 ++ v2]⟩ : BLI_Stack) v4 =
      .ok ⟨e, 2 * e, 2 * e, 4, [v3 ++ v4, v1 ++ v2]⟩ := by
    rw [push_shape_within rfl
      (show ¬([v3 ++ List.replicate e 0, v1 ++ v2] = [] ∨ e = 2 * e) from by
        rintro (h | h)
        · exact List.noConfusion h
        · omega)
      h4 (show e + e ≤ (v3 ++ List.replicate e 0).length from by
        simp only [List.length_append, List.length_replicate, h3]; omega)]
    simp only [haee, ha31, htk3]
    rw [show (⟨e, 2 * e, e, 3, [v3 ++ List.replicate e 0, v1 ++ v2]⟩ :
        BLI_Stack).chunk_index + (⟨e, 2 * e, e, 3, [v3 ++ List.replicate e 0,
        v1 ++ v2]⟩ : BLI_Stack).elem_size = 2 * e from by
      show e + e = 2 * e
      omega]
    rw [hdr34]
    simp
  have hp5 : BLI_stack_push (⟨e, 2 * e, 2 * e, 4, [v3 ++ v4, v1 ++ v2]⟩ :
      BLI_Stack) v5 =
      .ok ⟨e, 2 * e, e, 5, [v5 ++ List.replicate e 0, v3 ++ v4, v1 ++ v2]⟩ := by
    rw [push_shape_fresh (Or.inr rfl) h5 (show e ≤ 2 * e by omega)]
    simp only [ha0e, ha41, h2me]
  -- the five pops
  have hq1 : BLI_stack_pop (⟨e, 2 * e, e, 5,
      [v5 ++ List.replicate e 0, v3 ++ v4, v1 ++ v2]⟩ : BLI_Stack) true =
      .ok (some v5, ⟨e, 2 * e, 0, 4,
        [v5 ++ List.replicate e 0, v3 ++ v4, v1 ++ v2]⟩) := by
    rw [pop_shape_within rfl (show e ≠ 0 by omega)
      (show wrapSub e e + e ≤ (v5 ++ List.replicate e 0).length from by
        rw [hsee]
        simp only [List.length_append, List.length_replicate, h5]
        omega)]
    simp only [hsee, hs51, List.drop_zero, htk5]
  have hq2 : BLI_stack_pop (⟨e, 2 * e, 0, 4,
      [v5 ++ List.replicate e 0, v3 ++ v4, v1 ++ v2]⟩ : BLI_Stack) true =
      .ok (some v4, ⟨e, 2 * e, e, 3, [v3 ++ v4, v1 ++ v2]⟩) := by
    rw [pop_shape_promote rfl rfl
      (show wrapSub (2 * e) e + e ≤ (v3 ++ v4).length from by
        rw [hs2e]
        simp only [List.length_append, h3, h4]
        omega)]
    simp only [hs2e, hs41, hdl34, htv4]
  have hq3 : BLI_stack_pop (⟨e, 2 * e, e, 3, [v3 ++ v4, v1 ++ v2]⟩ :
      BLI_Stack) true =
      .ok (some v3, ⟨e, 2 * e, 0, 2, [v3 ++ v4, v1 ++ v2]⟩) := by
    rw [pop_shape_within rfl (show e ≠ 0 by omega)
      (show wrapSub e e + e ≤ (v3 ++ v4).length from by
        rw [hsee]
        simp only [List.length_append, h3, h4]
        omega)]
    simp only [hsee, hs31, List.drop_zero]
    rw [show (v3 ++ v4).take e = v3 from List.take_left' h3]
  have hq4 : BLI_stack_pop (⟨e, 2 * e, 0, 2, [v3 ++ v4, v1 ++ v2]⟩ :
      BLI_Stack) true =
      .ok (some v2, ⟨e, 2 * e, e, 1, [v1 ++ v2]⟩) := by
    rw [pop_shape_promote rfl rfl
      (show wrapSub (2 * e) e + e ≤ (v1 ++ v2).length from by
        rw [hs2e]
        simp only [List.length_append, h1, h2]
        omega)]
    simp only [hs2e, hs21, hdl12, htv2]
  have hq5 : BLI_stack_pop (⟨e, 2 * e, e, 1, [v1 ++ v2]⟩ : BLI_Stack) true =
      .ok (some v1, ⟨e, 2 * e, 0, 0, [v1 ++ v2]⟩) := by
    rw [pop_shape_within rfl (show e ≠ 0 by omega)
      (show wrapSub e e + e ≤ (v1 ++ v2).length from by
        rw [hsee]
        simp only [List.length_append, h1, h2]
        omega)]
    simp only [hsee, hs11, List.drop_zero]
    rw [show (v1 ++ v2).take e = v1 from List.take_left' h1]
  refine ⟨?_, ?_, rfl, ?_, rfl⟩
  · unfold BLI_stack_new_ex
    rw [if_neg (by omega), if_pos (by omega)]
  · exact runOps_cons_ok ((applyOp_push _ _).trans hp1)
      (runOps_cons_ok ((applyOp_push _ _).trans hp2)
        (runOps_cons_ok ((applyOp_push _ _).trans hp3)
          (runOps_cons_ok ((applyOp_push _ _).trans hp4)
            (runOps_cons_ok ((applyOp_push _ _).trans hp5) rfl))))
  · exact pop_n_succ (n := 4) hq1 (pop_n_succ (n := 3) hq2
      (pop_n_succ (n := 2) hq3 (pop_n_succ (n := 1) hq4
        (pop_n_succ (n := 0) hq5 rfl))))

/-- Witness for chunk-boundary crossing at `element_size = 1` with values
10, 20, 30, 40, 50. -/
theorem stack_chunk_boundary_w :
    BLI_stack_new_ex 1 2 = .ok ⟨1, 2, 0, 0, []⟩ ∧
    runOps ⟨1, 2, 0, 0, []⟩
        [.push [10], .push [20], .push [30], .push [40], .push [50]] =
      .ok ⟨1, 2, 1, 5, [[50, 0], [30, 40], [10, 20]]⟩ ∧
    (⟨1, 2, 1, 5, [[50, 0], [30, 40], [10, 20]]⟩ :
      BLI_Stack).chunks.length = 3 ∧
    BLI_stack_pop_n ⟨1, 2, 1, 5, [[50, 0], [30, 40], [10, 20]]⟩ 5 =
      .ok ([[50], [40], [30], [20], [10]], ⟨1, 2, 0, 0, [[10, 20]]⟩) ∧
    (⟨1, 2, 0, 0, [[10, 20]]⟩ : BLI_Stack).chunks.length = 1 :=
  stack_chunk_boundary 1 [10] [20] [30] [40] [50] (by decide) (by decide)
    rfl rfl rfl rfl rfl
